import Mathlib

/-!
Verification of the classes Fields and FieldsIO of src/main.cpp

A shallow embedding of the two classes of `src/main.cpp`.

* `std::string` is a `List Char`, `std::vector<std::string>` a list of those.
* A mutating method of `Fields` takes the object and returns the outcome of the call
  (`outcome.thrown` for a thrown exception) together with the object after the call.
* `std::size_t` indices are natural numbers; none of the embedded methods does arithmetic
  on an index that could wrap.
* `operator[]` and `get_field` index the vector without a bounds check; an index outside
  the vector is undefined behaviour in the source and `none` here.
* Allocation is assumed to succeed (no `std::bad_alloc`). The `reserve` of `add_fields` asks
  for the sum of the sizes of two existing vectors and is taken to stay within `max_size()`;
  the `reserve(n_lines)` of `read_fields_multiline` takes any `size_t` of the caller and its
  `std::length_error` above `max_size()` is part of the embedding (`vector_impl`).
-/

namespace FieldsModel

/-! ## Data model -/

/-- The type `Fields::field_t`, a `std::string`. -/
abbrev field_t := List Char

/-- The type `Fields::fields_t`, a `std::vector<field_t>`. -/
abbrev fields_t := List field_t

/-- The exceptions thrown by the source: only `std::length_error`, with its message. -/
inductive exception where
  | length_error (what : String)
  deriving DecidableEq, Repr

/-- Outcome of a `void` method: normal return or a thrown exception. -/
inductive outcome where
  | returned
  | thrown (e : exception)
  deriving DecidableEq, Repr

/-- The class `Fields`: its only data member is `fields_`. -/
structure Fields where
  fields_ : fields_t
  deriving DecidableEq, Repr

/-! ## Primitives of `std::vector` used by `Fields` -/

/-- Single-element `std::vector::insert(begin() + pos, x)`: the elements from `pos` on move one
slot to the right. The caller guarantees `pos ≤ size`. -/
def vector_insert {α : Type} : List α → Nat → α → List α
  | v, 0, x => x :: v
  | [], _ + 1, x => [x]
  | y :: v, pos + 1, x => y :: vector_insert v pos x

/-- Range `std::vector::insert(begin() + pos, first, last)` with `[first, last)` the elements
of `xs`. The caller guarantees `pos ≤ size`. -/
def vector_insert_range {α : Type} : List α → Nat → List α → List α
  | v, 0, xs => xs ++ v
  | [], _ + 1, xs => xs
  | y :: v, pos + 1, xs => y :: vector_insert_range v pos xs

/-- Single-element `std::vector::erase(begin() + pos)`: the elements after `pos` move one slot
to the left. The caller guarantees `pos < size`. -/
def vector_erase {α : Type} : List α → Nat → List α
  | [], _ => []
  | _ :: v, 0 => v
  | y :: v, pos + 1 => y :: vector_erase v pos

/-- Member `std::vector::push_back` / `emplace_back`. -/
def vector_push_back {α : Type} (v : List α) (x : α) : List α := v ++ [x]

/-! ## class Fields -/

namespace Fields

/-- Constructor `Fields()`: the empty sequence. -/
def empty : Fields := ⟨[]⟩

/-- Method `std::size_t size() const`. -/
def size (self : Fields) : Nat := self.fields_.length

/-- Method `void replace_field(std::size_t index, field_t new_field)`. -/
def replace_field (self : Fields) (index : Nat) (new_field : field_t) : outcome × Fields :=
  if index ≥ self.fields_.length then
    (.thrown (.length_error "field index is too large"), self)
  else
    (.returned, ⟨self.fields_.set index new_field⟩)

/-- Method `void insert_field(std::size_t index, field_t new_field)`. -/
def insert_field (self : Fields) (index : Nat) (new_field : field_t) : outcome × Fields :=
  if index ≥ self.fields_.length then
    (.thrown (.length_error "field index is too large"), self)
  else
    (.returned, ⟨vector_insert self.fields_ index new_field⟩)

/-- Method `void add_field(field_t new_field)`. -/
def add_field (self : Fields) (new_field : field_t) : outcome × Fields :=
  (.returned, ⟨vector_push_back self.fields_ new_field⟩)

/-- Method `void add_fields(const Fields &new_fields)`: the range-for loop pushes every field of
`new_fields` in turn. `new_fields` is a reference to a constant object other than `self`. -/
def add_fields (self : Fields) (new_fields : Fields) : outcome × Fields :=
  (.returned, ⟨new_fields.fields_.foldl (fun v field => vector_push_back v field) self.fields_⟩)

/-- Method `void remove_field(std::size_t index)`. -/
def remove_field (self : Fields) (index : Nat) : outcome × Fields :=
  if index ≥ self.fields_.length then
    (.thrown (.length_error "field index is too large"), self)
  else
    (.returned, ⟨vector_erase self.fields_ index⟩)

/-- Method `void insert_fields(std::size_t index, const Fields &new_fields)`. -/
def insert_fields (self : Fields) (index : Nat) (new_fields : Fields) : outcome × Fields :=
  if index ≥ self.fields_.length then
    (.thrown (.length_error "new fields index is too large"), self)
  else
    (.returned, ⟨vector_insert_range self.fields_ index new_fields.fields_⟩)

/-- Method `const field_t &operator[](std::size_t i) const`; `none` stands for the undefined
behaviour of an index outside the vector. -/
def index (self : Fields) (i : Nat) : Option field_t := self.fields_[i]?

/-- Method `field_t get_field(std::size_t i) const`: a copy of the field; `none` stands for the
undefined behaviour of an index outside the vector. -/
def get_field (self : Fields) (i : Nat) : Option field_t := self.fields_[i]?

end Fields

/-! ## Streams -/

/-- An input stream (`std::istream`, `std::istringstream`): the characters not yet read and
the state flags `eofbit` and `failbit` (`badbit` is never set by an in-memory source). -/
structure istream where
  buf : List Char
  eofbit : Bool
  failbit : Bool
  deriving DecidableEq, Repr

/-- Constructor `std::istringstream in(line)`: a fresh stream over `line`, no flag set. -/
def istringstream (line : List Char) : istream := ⟨line, false, false⟩

/-- Method `bool good() const`: no state flag is set. -/
def istream.good (is : istream) : Bool := !is.eofbit && !is.failbit

/-- The extraction loop of `std::getline(in, str, delim)` on the unread characters: the
characters stored in `str`, the characters left unread, and whether the end of the input was
reached. A delimiter is extracted and not stored; extraction then stops without reaching
the end. -/
def getline_extract (delim : Char) : List Char → List Char × List Char × Bool
  | [] => ([], [], true)
  | c :: cs =>
    if c = delim then ([], cs, false)
    else
      let r := getline_extract delim cs
      (c :: r.1, r.2.1, r.2.2)

/-- Function `std::getline(in, str, delim)`. When the stream is not good the sentry fails: `failbit` is
set and `str` is left alone. Otherwise `str` is erased and filled by the extraction loop,
`eofbit` is set when the end of the input is reached, and `failbit` is set when no character
was extracted at all (not even a delimiter), which happens only at the end of the input. -/
def getline (is : istream) (str : List Char) (delim : Char) : istream × List Char :=
  if is.good then
    let r := getline_extract delim is.buf
    (⟨r.2.1, r.2.2, r.2.2 && is.buf.isEmpty⟩, r.1)
  else
    (⟨is.buf, is.eofbit, true⟩, str)

/-- An output stream (`std::ostream`): the characters written so far. -/
abbrev ostream := List Char

/-! ## class FieldsIO -/

/-- The class `FieldsIO`: its only data member is the delimiter `delim_`. -/
structure FieldsIO where
  delim_ : Char
  deriving DecidableEq, Repr

namespace FieldsIO

/-- The `while (in.good())` loop of `read_fields(std::string)`, run for at most `fuel`
iterations: one `getline` per iteration into a fresh `field`, which is kept when its size
is positive. Returns the stream and the collected fields. -/
def read_fields_loop (self : FieldsIO) : Nat → istream → fields_t → istream × fields_t
  | 0, is, fields => (is, fields)
  | fuel + 1, is, fields =>
    if is.good then
      let r := getline is [] self.delim_
      read_fields_loop self fuel r.1
        (if r.2.length > 0 then vector_push_back fields r.2 else fields)
    else (is, fields)

/-- Method `Fields read_fields(std::string line) const`. Every iteration of the loop but the last
extracts a delimiter, so `line.length + 1` iterations exhaust the stream
(`read_fields_loop_spec`). -/
def read_fields (self : FieldsIO) (line : List Char) : Fields :=
  ⟨(read_fields_loop self (line.length + 1) (istringstream line) []).2⟩

/-- Method `void dump_fields(std::ostream &os, const Fields &fields)`: the stream after the call,
`none` if an index were out of the vector. The counter `i` is an `int` in the source; it is a
natural number here, the vector having fewer than `2^31` fields. -/
def dump_fields (self : FieldsIO) (os : ostream) (fields : Fields) : Option ostream :=
  if fields.size = 0 then some os
  else do
    let os1 ← (List.range (fields.size - 1)).foldlM
      (fun (o : ostream) i => do
        let f ← fields.index i
        pure (o ++ f ++ [self.delim_])) os
    let last ← fields.index (fields.size - 1)
    pure (os1 ++ last)

end FieldsIO

/-! ## The specification of `parse_line` in the spec's words -/

/-- Split `text` on every occurrence of the delimiter, then drop every zero-length piece. -/
def parse_line_spec (d : Char) (text : List Char) : List (List Char) :=
  (text.splitOn d).filter (fun piece => piece.length > 0)

/-! ## The mutable accessor and writes into a string -/

namespace Fields

/-- Method `field_t &operator[](std::size_t i)`, the mutable accessor: the reference is the
current value of slot `i` together with the write through it, which stores into slot `i` of
this very object. `none` stands for the undefined behaviour of an index outside the vector. -/
def index_mut (self : Fields) (i : Nat) : Option (field_t × (field_t → Fields)) :=
  match self.fields_[i]? with
  | some c => some (c, fun v => ⟨self.fields_.set i v⟩)
  | none => none

end Fields

/-- Assignment `str[pos] = c` through `std::string::operator[]`; `none` stands for the
undefined behaviour of a position that is not below the size of the string. -/
def string_set (str : List Char) (pos : Nat) (c : Char) : Option (List Char) :=
  if pos < str.length then some (str.set pos c) else none

/-- The two statements `field_t copy = fields.get_field(i); copy = f(copy);` (the first two
steps of `test_edit_first_field_with_copy_and_dump`, for any index and any modification of the
copy) with no `replace_field` after them: the object and the local copy after both statements.
`get_field` is a `const` method that returns by value, so the object is handed on as it is. -/
def edit_copy_only (fields : Fields) (i : Nat) (f : field_t → field_t) :
    Option (Fields × field_t) := do
  let copy ← fields.get_field i
  pure (fields, f copy)

/-- The editing steps of `test_edit_first_field_in_place_and_dump`:
`std::string &first_field = fields[0]; first_field[0] = 'a';`. The object after them. -/
def edit_first_field_in_place (fields : Fields) : Option Fields := do
  let first_field ← fields.index_mut 0
  let edited ← string_set first_field.1 0 'a'
  pure (first_field.2 edited)

/-- The editing steps of `test_edit_first_field_with_copy_and_dump`:
`std::string first_field_copy = fields.get_field(0); first_field_copy[0] = 'a';
fields.replace_field(0, first_field_copy);`. The outcome of the call and the object after. -/
def edit_first_field_with_copy (fields : Fields) : Option (outcome × Fields) := do
  let first_field_copy ← fields.get_field 0
  let edited ← string_set first_field_copy 0 'a'
  pure (fields.replace_field 0 edited)

/-! ## Reading from a stream, writing several sequences -/

/-- Result of a method that returns a value: the value, or a thrown exception. -/
inductive result (α : Type) where
  | returned (value : α)
  | thrown (e : exception)
  deriving DecidableEq, Repr

/-- The returned value of a result, `none` when the call threw. -/
def result.value? {α : Type} : result α → Option α
  | .returned v => some v
  | .thrown _ => none

/-- What the source takes from the implementation of `std::vector<Fields>` through
`output.reserve(n_lines)`: the value of `max_size()`, which is a `std::size_t` (of 64 bits),
and the message of the `std::length_error` that `reserve` throws for a request above it. The
source fixes neither, so both are parameters of the embedding. -/
structure vector_impl where
  max_size : Nat
  reserve_what : String
  max_size_le : max_size ≤ 2 ^ 64 - 1

/-- The implementation used to evaluate concrete calls: libstdc++ on a 64-bit target, where
`max_size()` of a vector of 24-byte elements is `PTRDIFF_MAX / 24` and the message of
`reserve` is `vector::reserve`. -/
def libstdcxx_impl : vector_impl := ⟨384307168202282325, "vector::reserve", by decide⟩

namespace FieldsIO

/-- Method `Fields read_fields(std::istream &in) const`: one `std::getline` with the default
delimiter, the line terminator, into a fresh `input_buffer`, then `read_fields` of the buffer.
Returns the stream after the call and the sequence. -/
def read_fields_istream (self : FieldsIO) (is : istream) : istream × Fields :=
  let r := getline is [] '\n'
  (r.1, self.read_fields r.2)

/-- The loop `for (size_t i = 0; i < n_lines && in.good(); ++i)` of `read_fields_multiline`,
by the number of iterations still allowed by `n_lines`: each iteration appends
`read_fields(in)` to `output`. -/
def read_fields_multiline_loop (self : FieldsIO) :
    Nat → istream → List Fields → istream × List Fields
  | 0, is, output => (is, output)
  | n + 1, is, output =>
    if is.good then
      let r := self.read_fields_istream is
      read_fields_multiline_loop self n r.1 (vector_push_back output r.2)
    else (is, output)

/-- Method `std::vector<Fields> read_fields_multiline(std::istream &in, size_t n_lines) const`:
the stream after the call and the returned vector or the thrown exception.
`output.reserve(n_lines)` comes first: for `n_lines` above `max_size()` it throws
`std::length_error` and nothing is read; otherwise it allocates and the loop runs. `n_lines`
is a `std::size_t`: a natural number that is not one is above `max_size()` and returns
nothing here. -/
def read_fields_multiline (self : FieldsIO) (impl : vector_impl) (is : istream)
    (n_lines : Nat) : istream × result (List Fields) :=
  if n_lines > impl.max_size then
    (is, .thrown (.length_error impl.reserve_what))
  else
    let r := read_fields_multiline_loop self n_lines is []
    (r.1, .returned r.2)

/-- Method `void dump_fields_multiline(std::ostream &os, BeginIt begin, EndIt end)` over the
range of the elements of `lines`. The loop visits the elements before `before_end = --end`,
writing each with `dump_fields` and a line terminator after it; the element at `before_end` is
written last. `none` stands for undefined behaviour: `--end` on an empty range. -/
def dump_fields_multiline (self : FieldsIO) (os : ostream) (lines : List Fields) :
    Option ostream :=
  match lines.getLast? with
  | none => none
  | some before_end => do
    let os1 ← lines.dropLast.foldlM
      (fun (o : ostream) l => do
        let o1 ← self.dump_fields o l
        pure (o1 ++ ['\n'])) os
    self.dump_fields os1 before_end

end FieldsIO

/-! ## The lines of a stream in the spec's words -/

/-- The lines available in a text, by the glossary: a line is one unit of text ended by a line
terminator, and characters after the last terminator form a last line when there are any. -/
def available_lines (text : List Char) : List (List Char) :=
  if (text.splitOn '\n').getLast? = some [] then (text.splitOn '\n').dropLast
  else text.splitOn '\n'

/-! ## Lemmas on the vector primitives -/

theorem vector_insert_eq_take_drop {α : Type} (v : List α) (pos : Nat) (x : α) :
    vector_insert v pos x = v.take pos ++ x :: v.drop pos := by
  induction v generalizing pos with
  | nil => cases pos <;> simp [vector_insert]
  | cons y v ih => cases pos <;> simp [vector_insert, ih]

theorem vector_insert_range_eq_take_drop {α : Type} (v : List α) (pos : Nat) (xs : List α) :
    vector_insert_range v pos xs = v.take pos ++ xs ++ v.drop pos := by
  induction v generalizing pos with
  | nil => cases pos <;> simp [vector_insert_range]
  | cons y v ih => cases pos <;> simp [vector_insert_range, ih]

theorem vector_erase_eq_take_drop {α : Type} (v : List α) (pos : Nat) :
    vector_erase v pos = v.take pos ++ v.drop (pos + 1) := by
  induction v generalizing pos with
  | nil => simp [vector_erase]
  | cons y v ih => cases pos <;> simp [vector_erase, ih]

theorem vector_insert_length {α : Type} (v : List α) (pos : Nat) (x : α) (h : pos ≤ v.length) :
    (vector_insert v pos x).length = v.length + 1 := by
  induction v generalizing pos with
  | nil => cases pos <;> simp [vector_insert]
  | cons y v ih =>
    cases pos with
    | zero => simp [vector_insert]
    | succ p => simp [vector_insert, ih p (by simpa using h)]

theorem vector_insert_get_lt {α : Type} (v : List α) (pos : Nat) (x : α) (j : Nat) (h : j < pos)
    (hp : pos ≤ v.length) : (vector_insert v pos x)[j]? = v[j]? := by
  induction v generalizing pos j with
  | nil => cases pos <;> simp_all
  | cons y v ih =>
    cases pos with
    | zero => omega
    | succ p =>
      cases j with
      | zero => simp [vector_insert]
      | succ k => simpa [vector_insert] using ih p k (by omega) (by simpa using hp)

theorem vector_insert_get_self {α : Type} (v : List α) (pos : Nat) (x : α)
    (hp : pos ≤ v.length) : (vector_insert v pos x)[pos]? = some x := by
  induction v generalizing pos with
  | nil => cases pos <;> simp_all [vector_insert]
  | cons y v ih =>
    cases pos with
    | zero => simp [vector_insert]
    | succ p => simpa [vector_insert] using ih p (by simpa using hp)

theorem vector_insert_get_ge {α : Type} (v : List α) (pos : Nat) (x : α) (j : Nat) (h : pos ≤ j)
    (hp : pos ≤ v.length) : (vector_insert v pos x)[j + 1]? = v[j]? := by
  induction v generalizing pos j with
  | nil => cases pos <;> simp_all [vector_insert]
  | cons y v ih =>
    cases pos with
    | zero => simp [vector_insert]
    | succ p =>
      cases j with
      | zero => omega
      | succ k => simpa [vector_insert] using ih p k (by omega) (by simpa using hp)

theorem vector_erase_length {α : Type} (v : List α) (pos : Nat) (h : pos < v.length) :
    (vector_erase v pos).length + 1 = v.length := by
  induction v generalizing pos with
  | nil => simp at h
  | cons y v ih =>
    cases pos with
    | zero => simp [vector_erase]
    | succ p => simp [vector_erase, ih p (by simpa using h)]

theorem vector_erase_get_lt {α : Type} (v : List α) (pos j : Nat) (h : j < pos) :
    (vector_erase v pos)[j]? = v[j]? := by
  induction v generalizing pos j with
  | nil => simp [vector_erase]
  | cons y v ih =>
    cases pos with
    | zero => omega
    | succ p =>
      cases j with
      | zero => simp [vector_erase]
      | succ k => simpa [vector_erase] using ih p k (by omega)

theorem vector_erase_get_ge {α : Type} (v : List α) (pos j : Nat) (h : pos ≤ j) :
    (vector_erase v pos)[j]? = v[j + 1]? := by
  induction v generalizing pos j with
  | nil => simp [vector_erase]
  | cons y v ih =>
    cases pos with
    | zero => simp [vector_erase]
    | succ p =>
      cases j with
      | zero => omega
      | succ k => simpa [vector_erase] using ih p k (by omega)

theorem foldl_push_back_eq_append {α : Type} (xs v : List α) :
    xs.foldl (fun w x => vector_push_back w x) v = v ++ xs := by
  induction xs generalizing v with
  | nil => simp
  | cons x xs ih =>
    rw [List.foldl_cons, ih]
    simp [vector_push_back]

/-! ## Lemmas on `getline` and the reading loop -/

theorem getline_extract_splitOn (d : Char) (buf : List Char) :
    buf.splitOn d =
      if (getline_extract d buf).2.2 then [(getline_extract d buf).1]
      else (getline_extract d buf).1 :: (getline_extract d buf).2.1.splitOn d := by
  induction buf with
  | nil => simp [getline_extract]
  | cons c cs ih =>
    by_cases hc : c = d
    · simp [getline_extract, hc, List.splitOn, List.splitOnP_cons]
    · have h1 : (c :: cs).splitOn d = (cs.splitOn d).modifyHead (List.cons c) := by
        simp [List.splitOn, List.splitOnP_cons, hc]
      rw [h1, ih]
      by_cases he : (getline_extract d cs).2.2 = true
      · simp [getline_extract, hc, he]
      · simp [getline_extract, hc, he]

theorem getline_extract_rest_length (d : Char) (buf : List Char)
    (h : (getline_extract d buf).2.2 = false) :
    (getline_extract d buf).2.1.length < buf.length := by
  induction buf with
  | nil => simp [getline_extract] at h
  | cons c cs ih =>
    by_cases hc : c = d
    · simp [getline_extract, hc]
    · simp only [getline_extract, hc, if_false] at h ⊢
      have := ih h
      simp only [List.length_cons]
      omega

theorem read_fields_loop_not_good (io : FieldsIO) (fuel : Nat) (is : istream) (acc : fields_t)
    (h : is.good = false) : io.read_fields_loop fuel is acc = (is, acc) := by
  cases fuel <;> simp [ FieldsIO.read_fields_loop, h]

theorem parse_line_spec_step (d : Char) (buf : List Char) :
    parse_line_spec d buf =
      (if (getline_extract d buf).1.length > 0 then [(getline_extract d buf).1] else []) ++
        (if (getline_extract d buf).2.2 then []
         else parse_line_spec d (getline_extract d buf).2.1) := by
  unfold parse_line_spec
  rw [getline_extract_splitOn d buf]
  by_cases he : (getline_extract d buf).2.2 = true <;>
    by_cases hl : (getline_extract d buf).1.length > 0 <;>
      simp [he, hl, List.filter_cons]

theorem read_fields_loop_spec (io : FieldsIO) (fuel : Nat) (buf : List Char) (acc : fields_t)
    (h : buf.length < fuel) :
    (io.read_fields_loop fuel ⟨buf, false, false⟩ acc).2 = acc ++ parse_line_spec io.delim_ buf ∧
      (io.read_fields_loop fuel ⟨buf, false, false⟩ acc).1.good = false := by
  induction fuel generalizing buf acc with
  | zero => omega
  | succ k ih =>
    rw [parse_line_spec_step]
    by_cases he : (getline_extract io.delim_ buf).2.2 = true
    · by_cases hl : (getline_extract io.delim_ buf).1.length > 0 <;>
        simp [ FieldsIO.read_fields_loop, istream.good, getline, he, hl,
          read_fields_loop_not_good, vector_push_back]
    · have he2 : (getline_extract io.delim_ buf).2.2 = false := by simpa using he
      have hlen := getline_extract_rest_length io.delim_ buf he2
      have hk : (getline_extract io.delim_ buf).2.1.length < k := by omega
      by_cases hl : (getline_extract io.delim_ buf).1.length > 0
      · have := ih (getline_extract io.delim_ buf).2.1
          (vector_push_back acc (getline_extract io.delim_ buf).1) hk
        simpa [ FieldsIO.read_fields_loop, istream.good, getline, he2, hl, vector_push_back]
          using this
      · have := ih (getline_extract io.delim_ buf).2.1 acc hk
        simpa [ FieldsIO.read_fields_loop, istream.good, getline, he2, hl] using this

/-! ## Lemmas on `dump_fields` -/

theorem intercalate_append_singleton (d : Char) (xs : List (List Char)) (y : List Char) :
    [d].intercalate (xs ++ [y]) = (xs.map (fun f => f ++ [d])).flatten ++ y := by
  induction xs with
  | nil => simp [List.intercalate]
  | cons x xs ih =>
    cases xs with
    | nil => simp [List.intercalate]
    | cons z zs =>
      simp only [List.intercalate] at ih ⊢
      simp only [List.cons_append, List.intersperse_cons₂, List.flatten_cons, List.map_cons,
        List.append_assoc] at ih ⊢
      rw [ih]

theorem dump_fields_loop_eq (io : FieldsIO) (fs : fields_t) (os : ostream) (k : Nat)
    (hk : k ≤ fs.length) :
    (List.range k).foldlM
      (fun (o : ostream) i => do
        let f ← (Fields.mk fs).index i
        pure (o ++ f ++ [io.delim_])) os
      = some (os ++ ((fs.take k).map (fun f => f ++ [io.delim_])).flatten) := by
  induction k with
  | zero => simp
  | succ k ih =>
    have hlt : k < fs.length := by omega
    rw [List.range_succ, List.foldlM_append, ih (by omega)]
    have hk2 : fs.take (k + 1) = fs.take k ++ [fs[k]] := (List.take_concat_get' fs k hlt).symm
    rw [hk2]
    simp only [Fields.index, List.getElem?_eq_getElem hlt, List.foldlM_cons, List.foldlM_nil,
      Option.some_bind, Option.bind_eq_bind, Option.pure_def, List.map_append, List.map_cons,
      List.map_nil, List.flatten_append, List.flatten_cons, List.flatten_nil, List.append_nil,
      List.append_assoc]

theorem dump_fields_eq_intercalate (io : FieldsIO) (os : ostream) (fs : fields_t) :
    io.dump_fields os ⟨fs⟩ = some (os ++ [io.delim_].intercalate fs) := by
  by_cases h0 : fs.length = 0
  · have : fs = [] := List.length_eq_zero.mp h0
    subst this
    simp [ FieldsIO.dump_fields, Fields.size, List.intercalate]
  · have hlt : fs.length - 1 < fs.length := by omega
    have hsplit : fs = fs.take (fs.length - 1) ++ [fs[fs.length - 1]] := by
      rw [List.take_concat_get' fs _ hlt]
      rw [List.take_of_length_le (by omega)]
    have hi := intercalate_append_singleton io.delim_ (fs.take (fs.length - 1))
      fs[fs.length - 1]
    rw [← hsplit] at hi
    unfold FieldsIO.dump_fields
    simp only [Fields.size, h0, if_false]
    rw [dump_fields_loop_eq io fs os (fs.length - 1) (by omega)]
    simp [Fields.index, List.getElem?_eq_getElem hlt, hi]

/-! ## Lemmas for the round trip -/

theorem splitOn_cons_eq (d c : Char) (cs : List Char) :
    (c :: cs).splitOn d =
      if c = d then [] :: cs.splitOn d else (cs.splitOn d).modifyHead (List.cons c) := by
  by_cases hc : c = d <;> simp [List.splitOn, List.splitOnP_cons, hc]

theorem splitOn_head_nonempty (d x : Char) (xs : List Char) (hx : x ≠ d) :
    ∃ h t, (x :: xs).splitOn d = (x :: h) :: t ∧ t = (xs.splitOn d).tail := by
  rw [splitOn_cons_eq, if_neg hx]
  cases hs : xs.splitOn d with
  | nil => exact absurd hs (List.splitOnP_ne_nil _ _)
  | cons h t => exact ⟨h, t, by simp⟩

theorem splitOn_tail_nonempty (d : Char) (text : List Char)
    (hlast : text.getLast? ≠ some d)
    (hcons : ∀ k, ¬(text[k]? = some d ∧ text[k + 1]? = some d)) :
    ∀ p ∈ (text.splitOn d).tail, p ≠ [] := by
  induction text with
  | nil => simp
  | cons c cs ih =>
    have hcons2 : ∀ k, ¬(cs[k]? = some d ∧ cs[k + 1]? = some d) := by
      intro k hk
      exact hcons (k + 1) (by simpa using hk)
    have hlast2 : cs ≠ [] → cs.getLast? ≠ some d := by
      intro hne
      cases cs with
      | nil => exact absurd rfl hne
      | cons x xs => simpa [List.getLast?_cons_cons] using hlast
    by_cases hc : c = d
    · subst hc
      rw [splitOn_cons_eq, if_pos rfl, List.tail_cons]
      cases cs with
      | nil => simp at hlast
      | cons x xs =>
        have hx : x ≠ c := by
          intro hxc
          exact hcons 0 (by simp [hxc])
        obtain ⟨h, t, hs, ht⟩ := splitOn_head_nonempty c x xs hx
        have ih2 := ih (hlast2 (by simp)) hcons2
        rw [hs] at ih2 ⊢
        intro p hp
        rcases List.mem_cons.mp hp with hp1 | hp2
        · simp [hp1]
        · exact ih2 p (by simpa using hp2)
    · rw [splitOn_cons_eq, if_neg hc]
      cases cs with
      | nil => simp
      | cons x xs =>
        have ih2 := ih (hlast2 (by simp)) hcons2
        cases hs : (x :: xs).splitOn d with
        | nil => simp
        | cons h t =>
          rw [hs] at ih2
          simpa using ih2

theorem intercalate_parse_line_spec (d : Char) (text : List Char)
    (hfirst : text.head? ≠ some d) (hlast : text.getLast? ≠ some d)
    (hcons : ∀ k, ¬(text[k]? = some d ∧ text[k + 1]? = some d)) :
    [d].intercalate (parse_line_spec d text) = text := by
  cases text with
  | nil => simp [parse_line_spec, List.intercalate]
  | cons x xs =>
    have hx : x ≠ d := by simpa using hfirst
    obtain ⟨h, t, hs, ht⟩ := splitOn_head_nonempty d x xs hx
    have htail := splitOn_tail_nonempty d (x :: xs) hlast hcons
    have hall : ∀ p ∈ (x :: xs).splitOn d, (decide (p.length > 0)) = true := by
      intro p hp
      rw [hs] at hp htail
      rcases List.mem_cons.mp hp with hp1 | hp2
      · simp [hp1]
      · have := htail p (by simpa using hp2)
        simpa [List.length_pos] using this
    unfold parse_line_spec
    rw [List.filter_eq_self.mpr hall]
    exact List.intercalate_splitOn _ d

/-! ## Parsing and the round trip -/

/-- C1: for every text and delimiter, `read_fields(text)` returns the pieces obtained by
splitting the text on every delimiter with the zero-length pieces dropped, in order (and its
loop has left by its own condition within `text.length + 1` iterations); with a tab delimiter
the text `\t\ta\t\tb\t` yields the fields `a`, `b`, and the empty text yields no field. -/
theorem read_fields_eq_split_drop_empty (io : FieldsIO) (text : List Char) :
    (io.read_fields text).fields_ = parse_line_spec io.delim_ text ∧
    (io.read_fields_loop (text.length + 1) (istringstream text) []).1.good = false ∧
    FieldsIO.read_fields ⟨'\t'⟩ "\t\ta\t\tb\t".toList = ⟨["a".toList, "b".toList]⟩ ∧
    io.read_fields [] = ⟨[]⟩ := by
  have h := read_fields_loop_spec io (text.length + 1) text [] (by omega)
  refine ⟨?_, h.2, by decide, ?_⟩
  · simpa [ FieldsIO.read_fields, istringstream] using h.1
  · simp [ FieldsIO.read_fields, FieldsIO.read_fields_loop, istringstream, istream.good, getline,
      getline_extract]

/-- C2: round trip. For every delimiter and every text with no leading delimiter, no trailing
delimiter and no two consecutive delimiters, `dump_fields` on a fresh stream for
`read_fields(text)` writes exactly `text`. -/
theorem dump_fields_read_fields_round_trip (io : FieldsIO) (text : List Char)
    (hfirst : text.head? ≠ some io.delim_) (hlast : text.getLast? ≠ some io.delim_)
    (hcons : ∀ k < text.length, ¬(text[k]? = some io.delim_ ∧ text[k + 1]? = some io.delim_)) :
    io.dump_fields [] (io.read_fields text) = some text := by
  have hcons2 : ∀ k, ¬(text[k]? = some io.delim_ ∧ text[k + 1]? = some io.delim_) := by
    intro k hk
    by_cases hlt : k < text.length
    · exact hcons k hlt hk
    · have hnone : text[k]? = none := List.getElem?_eq_none (by omega)
      rw [hnone] at hk
      exact absurd hk.1 (by simp)
  have h := (read_fields_loop_spec io (text.length + 1) text [] (by omega)).1
  have hr : io.read_fields text = ⟨parse_line_spec io.delim_ text⟩ := by
    simpa [ FieldsIO.read_fields, istringstream] using h
  rw [hr, dump_fields_eq_intercalate,
    intercalate_parse_line_spec io.delim_ text hfirst hlast hcons2]
  simp

/-- Witness of C2 at the text `a\tbc` with a tab delimiter. -/
theorem dump_fields_read_fields_round_trip_witness :
    ("a\tbc".toList.head? ≠ some '\t' ∧ "a\tbc".toList.getLast? ≠ some '\t' ∧
      ∀ k < "a\tbc".toList.length,
        ¬("a\tbc".toList[k]? = some '\t' ∧ "a\tbc".toList[k + 1]? = some '\t')) ∧
    FieldsIO.dump_fields ⟨'\t'⟩ [] ( FieldsIO.read_fields ⟨'\t'⟩ "a\tbc".toList)
      = some "a\tbc".toList :=
  ⟨⟨by decide, by decide, by decide⟩,
    dump_fields_read_fields_round_trip ⟨'\t'⟩ "a\tbc".toList (by decide) (by decide) (by decide)⟩

/-! ## The mutation contract of `Fields` -/

/-- C3: for every sequence and every index at or beyond its size, `replace_field`,
`remove_field`, `insert_field` and `insert_fields` each throw `std::length_error` and leave
the sequence exactly as it was. -/
theorem out_of_range_throws_and_keeps (s : Fields) (i : Nat) (v : field_t) (other : Fields)
    (h : i ≥ s.size) :
    s.replace_field i v = (.thrown (.length_error "field index is too large"), s) ∧
    s.remove_field i = (.thrown (.length_error "field index is too large"), s) ∧
    s.insert_field i v = (.thrown (.length_error "field index is too large"), s) ∧
    s.insert_fields i other = (.thrown (.length_error "new fields index is too large"), s) := by
  have h2 : i ≥ s.fields_.length := h
  simp [Fields.replace_field, Fields.remove_field, Fields.insert_field, Fields.insert_fields, h2]

/-- Witness of C3 at the one-field sequence `[a]` and the index 1, its size. -/
theorem out_of_range_throws_and_keeps_witness :
    1 ≥ (Fields.mk [['a']]).size ∧
    (Fields.mk [['a']]).replace_field 1 ['x']
      = (.thrown (.length_error "field index is too large"), ⟨[['a']]⟩) ∧
    (Fields.mk [['a']]).remove_field 1
      = (.thrown (.length_error "field index is too large"), ⟨[['a']]⟩) ∧
    (Fields.mk [['a']]).insert_field 1 ['x']
      = (.thrown (.length_error "field index is too large"), ⟨[['a']]⟩) ∧
    (Fields.mk [['a']]).insert_fields 1 ⟨[['y']]⟩
      = (.thrown (.length_error "new fields index is too large"), ⟨[['a']]⟩) :=
  ⟨by decide, out_of_range_throws_and_keeps ⟨[['a']]⟩ 1 ['x'] ⟨[['y']]⟩ (by decide)⟩

/-- C4: `insert_field` and `insert_fields` reject the tail position `index == size`; on the
empty sequence every indexed method throws for every index and leaves it empty, while
`add_field` and `add_fields` make it grow. -/
theorem insert_rejects_tail_position (s : Fields) (i : Nat) (v : field_t) (other : Fields) :
    s.insert_field s.size v = (.thrown (.length_error "field index is too large"), s) ∧
    s.insert_fields s.size other
      = (.thrown (.length_error "new fields index is too large"), s) ∧
    Fields.empty.insert_field i v
      = (.thrown (.length_error "field index is too large"), Fields.empty) ∧
    Fields.empty.insert_fields i other
      = (.thrown (.length_error "new fields index is too large"), Fields.empty) ∧
    Fields.empty.replace_field i v
      = (.thrown (.length_error "field index is too large"), Fields.empty) ∧
    Fields.empty.remove_field i
      = (.thrown (.length_error "field index is too large"), Fields.empty) ∧
    Fields.empty.add_field v = (.returned, ⟨[v]⟩) ∧
    Fields.empty.add_fields other = (.returned, other) := by
  refine ⟨?_, ?_, ?_, ?_, ?_, ?_, ?_, ?_⟩
  · simp [Fields.insert_field, Fields.size]
  · simp [Fields.insert_fields, Fields.size]
  · simp [Fields.insert_field, Fields.empty]
  · simp [Fields.insert_fields, Fields.empty]
  · simp [Fields.replace_field, Fields.empty]
  · simp [Fields.remove_field, Fields.empty]
  · simp [Fields.add_field, Fields.empty, vector_push_back]
  · simp [Fields.add_fields, Fields.empty, foldl_push_back_eq_append]

/-- C5: for every sequence, every index below its size and every string, `replace_field`
returns normally, `get_field` at that index then gives the new string, the size is unchanged
and the field at every other index is the same as before. -/
theorem replace_field_in_range (s : Fields) (i : Nat) (v : field_t) (h : i < s.size) :
    (s.replace_field i v).1 = .returned ∧
    (s.replace_field i v).2.get_field i = some v ∧
    (s.replace_field i v).2.size = s.size ∧
    ∀ j, j ≠ i → (s.replace_field i v).2.get_field j = s.get_field j := by
  have h2 : ¬ i ≥ s.fields_.length := by simpa [Fields.size] using h
  have h3 : i < s.fields_.length := h
  refine ⟨?_, ?_, ?_, ?_⟩
  · simp [Fields.replace_field, h2]
  · simp [Fields.replace_field, h2, Fields.get_field, List.getElem?_set_self, h3]
  · simp [Fields.replace_field, h2, Fields.size]
  · intro j hj
    simp [Fields.replace_field, h2, Fields.get_field, List.getElem?_set_ne (Ne.symm hj)]

/-- Witness of C5 at the sequence `[a, b]`, index 1. -/
theorem replace_field_in_range_witness :
    1 < (Fields.mk [['a'], ['b']]).size ∧
    (((Fields.mk [['a'], ['b']]).replace_field 1 ['x']).1 = .returned ∧
    ((Fields.mk [['a'], ['b']]).replace_field 1 ['x']).2.get_field 1 = some ['x'] ∧
    ((Fields.mk [['a'], ['b']]).replace_field 1 ['x']).2.size = (Fields.mk [['a'], ['b']]).size ∧
    ∀ j, j ≠ 1 → ((Fields.mk [['a'], ['b']]).replace_field 1 ['x']).2.get_field j
      = (Fields.mk [['a'], ['b']]).get_field j) :=
  ⟨by decide, replace_field_in_range ⟨[['a'], ['b']]⟩ 1 ['x'] (by decide)⟩

/-- C6: for every sequence, every index below its size and every string, `insert_field`
returns normally, the size grows by exactly one, the new string is at the index, the field
formerly there is one slot further, the fields before the index stay and those from the index
on move one slot to the right: the result is the first `i` fields, the string, the rest. -/
theorem insert_field_in_range (s : Fields) (i : Nat) (v : field_t) (h : i < s.size) :
    (s.insert_field i v).1 = .returned ∧
    (s.insert_field i v).2.size = s.size + 1 ∧
    (s.insert_field i v).2.get_field i = some v ∧
    (s.insert_field i v).2.get_field (i + 1) = s.get_field i ∧
    (∀ j, j < i → (s.insert_field i v).2.get_field j = s.get_field j) ∧
    (∀ j, j ≥ i → (s.insert_field i v).2.get_field (j + 1) = s.get_field j) ∧
    (s.insert_field i v).2.fields_ = s.fields_.take i ++ [v] ++ s.fields_.drop i := by
  have h2 : ¬ i ≥ s.fields_.length := by simpa [Fields.size] using h
  have h3 : i ≤ s.fields_.length := Nat.le_of_lt h
  have hr : s.insert_field i v = (.returned, ⟨vector_insert s.fields_ i v⟩) := by
    simp [Fields.insert_field, h2]
  rw [hr]
  refine ⟨rfl, ?_, ?_, ?_, ?_, ?_, ?_⟩
  · exact vector_insert_length s.fields_ i v h3
  · exact vector_insert_get_self s.fields_ i v h3
  · exact vector_insert_get_ge s.fields_ i v i (Nat.le_refl i) h3
  · intro j hj
    exact vector_insert_get_lt s.fields_ i v j hj h3
  · intro j hj
    exact vector_insert_get_ge s.fields_ i v j hj h3
  · simp [vector_insert_eq_take_drop]

/-- Witness of C6 at the sequence `[a, b]`, index 1. -/
theorem insert_field_in_range_witness :
    1 < (Fields.mk [['a'], ['b']]).size ∧
    (Fields.mk [['a'], ['b']]).insert_field 1 ['x'] = (.returned, ⟨[['a'], ['x'], ['b']]⟩) ∧
    ((Fields.mk [['a'], ['b']]).insert_field 1 ['x']).2.size
      = (Fields.mk [['a'], ['b']]).size + 1 :=
  ⟨by decide, by decide, (insert_field_in_range ⟨[['a'], ['b']]⟩ 1 ['x'] (by decide)).2.1⟩

/-- C7: for every sequence and every index below its size, `remove_field` returns normally,
the size shrinks by exactly one, the fields before the index stay and those after it move one
slot to the left: the result is the sequence with exactly the element at the index deleted. -/
theorem remove_field_in_range (s : Fields) (i : Nat) (h : i < s.size) :
    (s.remove_field i).1 = .returned ∧
    (s.remove_field i).2.size + 1 = s.size ∧
    (∀ j, j < i → (s.remove_field i).2.get_field j = s.get_field j) ∧
    (∀ j, j > i → (s.remove_field i).2.get_field (j - 1) = s.get_field j) ∧
    (s.remove_field i).2.fields_ = s.fields_.take i ++ s.fields_.drop (i + 1) := by
  have h2 : ¬ i ≥ s.fields_.length := by simpa [Fields.size] using h
  have hr : s.remove_field i = (.returned, ⟨vector_erase s.fields_ i⟩) := by
    simp [Fields.remove_field, h2]
  rw [hr]
  refine ⟨rfl, ?_, ?_, ?_, ?_⟩
  · exact vector_erase_length s.fields_ i h
  · intro j hj
    exact vector_erase_get_lt s.fields_ i j hj
  · intro j hj
    have := vector_erase_get_ge s.fields_ i (j - 1) (by omega)
    have hj1 : j - 1 + 1 = j := by omega
    rw [hj1] at this
    exact this
  · exact vector_erase_eq_take_drop s.fields_ i

/-- Witness of C7 at the sequence `[a, b, c]`, index 1. -/
theorem remove_field_in_range_witness :
    1 < (Fields.mk [['a'], ['b'], ['c']]).size ∧
    (Fields.mk [['a'], ['b'], ['c']]).remove_field 1 = (.returned, ⟨[['a'], ['c']]⟩) ∧
    ((Fields.mk [['a'], ['b'], ['c']]).remove_field 1).2.size + 1
      = (Fields.mk [['a'], ['b'], ['c']]).size :=
  ⟨by decide, by decide, (remove_field_in_range ⟨[['a'], ['b'], ['c']]⟩ 1 (by decide)).2.1⟩

/-- C8: for every sequence, the empty one included, and every string, `add_field` returns
normally, the new size is the old size plus one, `get_field` at the last index gives the
string, and every field at an index below the old size is unchanged. -/
theorem add_field_appends (s : Fields) (v : field_t) :
    (s.add_field v).1 = .returned ∧
    (s.add_field v).2.size = s.size + 1 ∧
    (s.add_field v).2.get_field ((s.add_field v).2.size - 1) = some v ∧
    (∀ j, j < s.size → (s.add_field v).2.get_field j = s.get_field j) ∧
    (s.add_field v).2.fields_ = s.fields_ ++ [v] := by
  refine ⟨rfl, ?_, ?_, ?_, rfl⟩
  · simp [Fields.add_field, Fields.size, vector_push_back]
  · simp [Fields.add_field, Fields.size, Fields.get_field, vector_push_back]
  · intro j hj
    have hj2 : j < s.fields_.length := hj
    simp [Fields.add_field, Fields.get_field, vector_push_back, List.getElem?_append_left hj2]

/-- C9: for every sequence and every other sequence, `add_fields` returns normally and leaves
the old fields followed by all fields of the other sequence in its order; joining `[a, b]`
with `[c, d]` yields `[a, b, c, d]`. The other sequence is a constant argument of the call. -/
theorem add_fields_appends_all (s o : Fields) :
    (s.add_fields o).1 = .returned ∧
    (s.add_fields o).2.fields_ = s.fields_ ++ o.fields_ ∧
    (s.add_fields o).2.size = s.size + o.size ∧
    (Fields.mk [['a'], ['b']]).add_fields ⟨[['c'], ['d']]⟩
      = (.returned, ⟨[['a'], ['b'], ['c'], ['d']]⟩) := by
  refine ⟨rfl, ?_, ?_, by decide⟩
  · simp [Fields.add_fields, foldl_push_back_eq_append]
  · simp [Fields.add_fields, foldl_push_back_eq_append, Fields.size]

/-- C10: for every sequence, every index below its size and every other sequence,
`insert_fields` returns normally and leaves the first `i` old fields, then all fields of the
other sequence in their order, then the old fields from `i` on; the size grows by exactly the
size of the other sequence, so inserting an empty sequence changes nothing. -/
theorem insert_fields_in_range (s : Fields) (i : Nat) (o : Fields) (h : i < s.size) :
    (s.insert_fields i o).1 = .returned ∧
    (s.insert_fields i o).2.fields_ = s.fields_.take i ++ o.fields_ ++ s.fields_.drop i ∧
    (s.insert_fields i o).2.size = s.size + o.size ∧
    (o.size = 0 → (s.insert_fields i o).2 = s) := by
  have h2 : ¬ i ≥ s.fields_.length := by simpa [Fields.size] using h
  have h3 : i ≤ s.fields_.length := Nat.le_of_lt h
  have hr : s.insert_fields i o = (.returned, ⟨vector_insert_range s.fields_ i o.fields_⟩) := by
    simp [Fields.insert_fields, h2]
  rw [hr]
  refine ⟨rfl, ?_, ?_, ?_⟩
  · exact vector_insert_range_eq_take_drop s.fields_ i o.fields_
  · simp only [Fields.size, vector_insert_range_eq_take_drop, List.length_append,
      List.length_take, List.length_drop]
    omega
  · intro ho
    have ho2 : o.fields_ = [] := List.length_eq_zero.mp ho
    cases s with
    | mk fs => simp [vector_insert_range_eq_take_drop, ho2]

/-- Witness of C10 at the sequence `[a, b]`, index 1, inserting `[x, y]`. -/
theorem insert_fields_in_range_witness :
    1 < (Fields.mk [['a'], ['b']]).size ∧
    (Fields.mk [['a'], ['b']]).insert_fields 1 ⟨[['x'], ['y']]⟩
      = (.returned, ⟨[['a'], ['x'], ['y'], ['b']]⟩) ∧
    ((Fields.mk [['a'], ['b']]).insert_fields 1 ⟨[['x'], ['y']]⟩).2.size
      = (Fields.mk [['a'], ['b']]).size + (Fields.mk [['x'], ['y']]).size :=
  ⟨by decide, by decide,
    (insert_fields_in_range ⟨[['a'], ['b']]⟩ 1 ⟨[['x'], ['y']]⟩ (by decide)).2.2.1⟩


/-! ## Lemmas on splitting -/

theorem splitOn_length (d : Char) (text : List Char) :
    (text.splitOn d).length = text.count d + 1 := by
  induction text with
  | nil => simp
  | cons c cs ih =>
    rw [splitOn_cons_eq]
    by_cases hc : c = d
    · subst hc
      simp [ih]
    · have hcd : (c == d) = false := by simpa using hc
      simp [hc, ih, List.count_cons, hcd]

theorem getLast?_modifyHead {α : Type} (f : α → α) (l : List α) (h : 2 ≤ l.length) :
    (l.modifyHead f).getLast? = l.getLast? := by
  match l, h with
  | _ :: _ :: _, _ => simp

theorem splitOn_getLast_nil (d : Char) (text : List Char)
    (h : text = [] ∨ text.getLast? = some d) : (text.splitOn d).getLast? = some [] := by
  induction text with
  | nil => simp
  | cons c cs ih =>
    rw [splitOn_cons_eq]
    cases cs with
    | nil =>
      have hc : c = d := by simpa using h
      simp [hc]
    | cons x xs =>
      have hl : (x :: xs).getLast? = some d := by simpa using h
      have ih2 := ih (Or.inr hl)
      have hmem : d ∈ x :: xs := List.mem_of_getLast?_eq_some hl
      have hlen : 2 ≤ ((x :: xs).splitOn d).length := by
        rw [splitOn_length]
        have := List.count_pos_iff.mpr hmem
        omega
      by_cases hc : c = d
      · rw [if_pos hc]
        cases hs : (x :: xs).splitOn d with
        | nil => rw [hs] at hlen; simp at hlen
        | cons a t => rw [hs] at ih2; simpa using ih2
      · rw [if_neg hc, getLast?_modifyHead _ _ hlen]
        exact ih2

theorem splitOn_no_delim (d : Char) (text : List Char) :
    ∀ p ∈ text.splitOn d, d ∉ p := by
  induction text with
  | nil => simp
  | cons c cs ih =>
    rw [splitOn_cons_eq]
    by_cases hc : c = d
    · rw [if_pos hc]
      intro p hp
      rcases List.mem_cons.mp hp with hp1 | hp2
      · simp [hp1]
      · exact ih p hp2
    · rw [if_neg hc]
      cases hs : cs.splitOn d with
      | nil => simp
      | cons a t =>
        rw [hs] at ih
        intro p hp
        simp only [List.modifyHead_cons, List.mem_cons] at hp
        rcases hp with hp1 | hp2
        · subst hp1
          have ha := ih a (by simp)
          simp only [List.mem_cons, not_or]
          exact ⟨fun hdc => hc hdc.symm, ha⟩
        · exact ih p (by simp [hp2])

theorem getline_extract_eq_takeWhile (d : Char) (buf : List Char) :
    getline_extract d buf =
      (buf.takeWhile (fun c => c != d), (buf.dropWhile (fun c => c != d)).drop 1,
        decide (d ∉ buf)) := by
  induction buf with
  | nil => simp [getline_extract]
  | cons c cs ih =>
    by_cases hc : c = d
    · subst hc
      simp [getline_extract]
    · have hdc : ¬ d = c := fun h => hc h.symm
      simp [getline_extract, hc, hdc, ih, List.takeWhile_cons, List.dropWhile_cons]


/-! ## Lemmas on reading from a stream -/

theorem read_fields_multiline_loop_not_good (io : FieldsIO) (n : Nat) (is : istream)
    (acc : List Fields) (h : is.good = false) :
    io.read_fields_multiline_loop n is acc = (is, acc) := by
  cases n <;> simp [ FieldsIO.read_fields_multiline_loop, h]

theorem read_fields_multiline_loop_acc (io : FieldsIO) (n : Nat) (is : istream)
    (acc : List Fields) :
    io.read_fields_multiline_loop n is acc =
      ((io.read_fields_multiline_loop n is []).1,
        acc ++ (io.read_fields_multiline_loop n is []).2) := by
  induction n generalizing is acc with
  | zero => simp [ FieldsIO.read_fields_multiline_loop]
  | succ k ih =>
    by_cases hg : is.good = true
    · simp only [ FieldsIO.read_fields_multiline_loop, hg, if_true]
      rw [ih _ (vector_push_back acc _), ih _ (vector_push_back [] _)]
      simp [vector_push_back]
    · simp [ FieldsIO.read_fields_multiline_loop, hg]

theorem read_fields_multiline_loop_spec (io : FieldsIO) (n : Nat) (buf : List Char)
    (acc : List Fields) :
    (io.read_fields_multiline_loop n ⟨buf, false, false⟩ acc).2 =
      acc ++ ((buf.splitOn '\n').take n).map io.read_fields := by
  induction n generalizing buf acc with
  | zero => simp [ FieldsIO.read_fields_multiline_loop]
  | succ k ih =>
    rw [getline_extract_splitOn '\n' buf]
    by_cases he : (getline_extract '\n' buf).2.2 = true
    · simp [ FieldsIO.read_fields_multiline_loop, FieldsIO.read_fields_istream, istream.good,
        getline, he, read_fields_multiline_loop_not_good, vector_push_back]
    · have he2 : (getline_extract '\n' buf).2.2 = false := by simpa using he
      have := ih (getline_extract '\n' buf).2.1
        (vector_push_back acc (io.read_fields (getline_extract '\n' buf).1))
      simpa [ FieldsIO.read_fields_multiline_loop, FieldsIO.read_fields_istream, istream.good,
        getline, he2, vector_push_back] using this

theorem read_fields_multiline_returns (io : FieldsIO) (impl : vector_impl) (is : istream)
    (n : Nat) (h : n ≤ impl.max_size) :
    io.read_fields_multiline impl is n =
      ((io.read_fields_multiline_loop n is []).1,
        .returned (io.read_fields_multiline_loop n is []).2) := by
  have h2 : ¬ n > impl.max_size := by omega
  simp [ FieldsIO.read_fields_multiline, h2]

theorem read_fields_multiline_throws (io : FieldsIO) (impl : vector_impl) (is : istream)
    (n : Nat) (h : n > impl.max_size) :
    io.read_fields_multiline impl is n = (is, .thrown (.length_error impl.reserve_what)) := by
  simp [ FieldsIO.read_fields_multiline, h]

theorem read_fields_multiline_eq (io : FieldsIO) (impl : vector_impl) (buf : List Char)
    (n : Nat) (h : n ≤ impl.max_size) :
    (io.read_fields_multiline impl ⟨buf, false, false⟩ n).2 =
      .returned (((buf.splitOn '\n').take n).map io.read_fields) := by
  rw [read_fields_multiline_returns io impl _ n h]
  simpa using read_fields_multiline_loop_spec io n buf []

theorem read_fields_multiline_length (io : FieldsIO) (impl : vector_impl) (buf : List Char)
    (n : Nat) (h : n ≤ impl.max_size) :
    ((io.read_fields_multiline impl ⟨buf, false, false⟩ n).2.value?).map List.length
      = some (min n (buf.count '\n' + 1)) := by
  rw [read_fields_multiline_eq io impl buf n h]
  simp [result.value?, List.length_take, splitOn_length]

theorem available_lines_get (text : List Char) (i : Nat)
    (h : i < (available_lines text).length) :
    (available_lines text)[i]? = (text.splitOn '\n')[i]? := by
  unfold available_lines at h ⊢
  by_cases hl : (text.splitOn '\n').getLast? = some []
  · rw [if_pos hl] at h ⊢
    rw [List.dropLast_eq_take] at h ⊢
    rw [List.length_take] at h
    exact List.getElem?_take_of_lt (by omega)
  · rw [if_neg hl]

/-! ## Lemmas on erasing and on writing -/

theorem vector_erase_insert {α : Type} (v : List α) (pos : Nat) (x : α) (h : pos ≤ v.length) :
    vector_erase (vector_insert v pos x) pos = v := by
  induction v generalizing pos with
  | nil =>
    have : pos = 0 := by simpa using h
    subst this
    simp [vector_insert, vector_erase]
  | cons y v ih =>
    cases pos with
    | zero => simp [vector_insert, vector_erase]
    | succ p => simp [vector_insert, vector_erase, ih p (by simpa using h)]

theorem intercalate_cons_eq (d : Char) (f : List Char) (rest : List (List Char)) :
    [d].intercalate (f :: rest) = f ++ (rest.map (fun g => d :: g)).flatten := by
  induction rest generalizing f with
  | nil => simp [List.intercalate]
  | cons g gs ih =>
    have := ih g
    simp only [List.intercalate] at this ⊢
    simp only [List.intersperse_cons₂, List.flatten_cons, List.map_cons] at this ⊢
    rw [this]
    simp

theorem dump_fields_multiline_loop_eq (io : FieldsIO) (ls : List Fields) (os : ostream) :
    ls.foldlM
      (fun (o : ostream) l => do
        let o1 ← io.dump_fields o l
        pure (o1 ++ ['\n'])) os
      = some (os ++ (ls.map (fun l => [io.delim_].intercalate l.fields_ ++ ['\n'])).flatten) := by
  induction ls generalizing os with
  | nil => simp
  | cons l ls ih =>
    rw [List.foldlM_cons, dump_fields_eq_intercalate]
    simp only [Option.some_bind, Option.bind_eq_bind, Option.pure_def]
    refine (ih _).trans ?_
    simp

theorem dump_fields_multiline_eq (io : FieldsIO) (os : ostream) (lines : List Fields)
    (h : lines ≠ []) :
    io.dump_fields_multiline os lines =
      some (os ++ ['\n'].intercalate (lines.map (fun l => [io.delim_].intercalate l.fields_))) := by
  have hsplit : lines.dropLast ++ [lines.getLast h] = lines := List.dropLast_concat_getLast h
  have hlast : lines.getLast? = some (lines.getLast h) := List.getLast?_eq_getLast _ h
  have hi := intercalate_append_singleton '\n'
    (lines.dropLast.map (fun l => [io.delim_].intercalate l.fields_))
    ([io.delim_].intercalate (lines.getLast h).fields_)
  have hmap : lines.map (fun l => [io.delim_].intercalate l.fields_) =
      lines.dropLast.map (fun l => [io.delim_].intercalate l.fields_) ++
        [[io.delim_].intercalate (lines.getLast h).fields_] := by
    conv_lhs => rw [← hsplit]
    simp
  rw [hmap, hi]
  unfold FieldsIO.dump_fields_multiline
  rw [hlast]
  simp only []
  rw [dump_fields_multiline_loop_eq]
  simp only [Option.some_bind, Option.bind_eq_bind]
  rw [dump_fields_eq_intercalate]
  simp [List.map_map, Function.comp_def]


theorem first_terminator_split (d : Char) (buf : List Char) :
    (d ∈ buf → buf = buf.takeWhile (fun c => c != d) ++
      d :: (buf.dropWhile (fun c => c != d)).drop 1) ∧
    (d ∉ buf → buf.takeWhile (fun c => c != d) = buf ∧
      (buf.dropWhile (fun c => c != d)).drop 1 = []) ∧
    d ∉ buf.takeWhile (fun c => c != d) := by
  induction buf with
  | nil => simp
  | cons c cs ih =>
    by_cases hc : c = d
    · subst hc
      simp
    · have hdc : ¬ d = c := fun h => hc h.symm
      obtain ⟨h1, h2, h3⟩ := ih
      refine ⟨?_, ?_, ?_⟩
      · intro hm
        have hm2 : d ∈ cs := by simpa [hdc] using hm
        have := h1 hm2
        simp only [List.takeWhile_cons, List.dropWhile_cons, bne_iff_ne, ne_eq, hc,
          not_false_eq_true, decide_True, if_true, List.cons_append]
        exact congrArg (List.cons c) this
      · intro hm
        have hm2 : d ∉ cs := by
          intro hcs
          exact hm (List.mem_cons_of_mem c hcs)
        have := h2 hm2
        simp only [List.takeWhile_cons, List.dropWhile_cons, bne_iff_ne, ne_eq, hc,
          not_false_eq_true, decide_True, if_true]
        exact ⟨congrArg (List.cons c) this.1, this.2⟩
      · simp only [List.takeWhile_cons, bne_iff_ne, ne_eq, hc, not_false_eq_true, decide_True,
          if_true, List.mem_cons, not_or]
        exact ⟨hdc, h3⟩

theorem read_fields_multiline_loop_length_le (io : FieldsIO) (n : Nat) (is : istream)
    (acc : List Fields) :
    (io.read_fields_multiline_loop n is acc).2.length ≤ acc.length + n := by
  induction n generalizing is acc with
  | zero => simp [ FieldsIO.read_fields_multiline_loop]
  | succ k ih =>
    by_cases hg : is.good = true
    · simp only [ FieldsIO.read_fields_multiline_loop, hg, if_true]
      refine Nat.le_trans (ih _ _) ?_
      simp [vector_push_back]
      omega
    · simp [ FieldsIO.read_fields_multiline_loop, hg]

theorem read_fields_eq_spec (io : FieldsIO) (text : List Char) :
    io.read_fields text = ⟨parse_line_spec io.delim_ text⟩ := by
  have h := (read_fields_loop_spec io (text.length + 1) text [] (by omega)).1
  simpa [ FieldsIO.read_fields, istringstream] using h

/-! ## Writing -/

/-- C11: for every delimiter and every sequence, `dump_fields` writes exactly the fields in
order with one delimiter between adjacent fields (the first field, then every further field
preceded by one delimiter), nothing before, nothing after, no line terminator; for the empty
sequence it writes nothing and for a one-field sequence just that field. -/
theorem dump_fields_joins_with_delimiter (io : FieldsIO) (os : ostream) (s : Fields) :
    io.dump_fields os s = some (os ++ [io.delim_].intercalate s.fields_) ∧
    io.dump_fields os ⟨[]⟩ = some os ∧
    (∀ f, io.dump_fields os ⟨[f]⟩ = some (os ++ f)) ∧
    (∀ f rest, io.dump_fields os ⟨f :: rest⟩ =
      some (os ++ f ++ (rest.map (fun g => io.delim_ :: g)).flatten)) := by
  refine ⟨dump_fields_eq_intercalate io os s.fields_, ?_, ?_, ?_⟩
  · rw [dump_fields_eq_intercalate]
    simp [List.intercalate]
  · intro f
    rw [dump_fields_eq_intercalate]
    simp [List.intercalate]
  · intro f rest
    rw [dump_fields_eq_intercalate, intercalate_cons_eq]
    simp

/-- C12: for every delimiter and every non-empty list of sequences, `dump_fields_multiline`
writes the `dump_fields` output of each sequence in order with exactly one line terminator
between consecutive sequences and none after the last; the sequences `[a, b]`, `[c]` with a
comma delimiter give the text `a,b\nc`. -/
theorem dump_fields_multiline_joins_with_newline (io : FieldsIO) (os : ostream)
    (lines : List Fields) (h : lines ≠ []) :
    (∀ l ∈ lines, io.dump_fields [] l = some ([io.delim_].intercalate l.fields_)) ∧
    io.dump_fields_multiline os lines =
      some (os ++ ['\n'].intercalate (lines.map (fun l => [io.delim_].intercalate l.fields_))) ∧
    FieldsIO.dump_fields_multiline ⟨','⟩ [] [⟨["a".toList, "b".toList]⟩, ⟨["c".toList]⟩]
      = some "a,b\nc".toList := by
  refine ⟨?_, dump_fields_multiline_eq io os lines h, by decide⟩
  intro l _
  rw [dump_fields_eq_intercalate]
  simp

/-- Witness of C12 at the two sequences `[a, b]`, `[c]` with a tab delimiter. -/
theorem dump_fields_multiline_joins_with_newline_witness :
    ([Fields.mk ["a".toList, "b".toList], Fields.mk ["c".toList]] ≠ []) ∧
    FieldsIO.dump_fields_multiline ⟨'\t'⟩ "x".toList
        [Fields.mk ["a".toList, "b".toList], Fields.mk ["c".toList]]
      = some ("x".toList ++ ['\n'].intercalate
          ([Fields.mk ["a".toList, "b".toList], Fields.mk ["c".toList]].map
            (fun l => ['\t'].intercalate l.fields_))) :=
  ⟨by decide,
    (dump_fields_multiline_joins_with_newline ⟨'\t'⟩ "x".toList
      [Fields.mk ["a".toList, "b".toList], Fields.mk ["c".toList]] (by decide)).2.1⟩


/-! ## Reading from a stream -/

/-- C13 at the stream `a\nb\nc\n`, three lines each ended by a line terminator, with five
lines asked for: `read_fields_multiline` returns four sequences, the fourth empty, where the
minimum of the count and the three available lines is three. -/
theorem read_fields_multiline_three_lines_gives_four :
    ( FieldsIO.read_fields_multiline ⟨'\t'⟩ libstdcxx_impl
        (istringstream "a\nb\nc\n".toList) 5).2
      = .returned [⟨["a".toList]⟩, ⟨["b".toList]⟩, ⟨["c".toList]⟩, ⟨[]⟩] ∧
    (( FieldsIO.read_fields_multiline ⟨'\t'⟩ libstdcxx_impl
        (istringstream "a\nb\nc\n".toList) 5).2.value?).map List.length = some 4 ∧
    available_lines "a\nb\nc\n".toList = ["a".toList, "b".toList, "c".toList] ∧
    min 5 (available_lines "a\nb\nc\n".toList).length = 3 := by
  decide

/-- C14: on a good stream `read_fields(std::istream&)` consumes the characters up to and
including the first line terminator, or all of them when there is none, returns
`read_fields(std::string)` of the characters before the terminator and leaves the rest in the
stream; on a stream with no characters left, or one that is not good, it returns the empty
sequence (it has no failing path) and takes nothing from the stream. -/
theorem read_fields_istream_one_line (io : FieldsIO) (buf : List Char) (is : istream) :
    (io.read_fields_istream ⟨buf, false, false⟩).2
      = io.read_fields (buf.takeWhile (fun c => c != '\n')) ∧
    (io.read_fields_istream ⟨buf, false, false⟩).1.buf
      = (buf.dropWhile (fun c => c != '\n')).drop 1 ∧
    '\n' ∉ buf.takeWhile (fun c => c != '\n') ∧
    ('\n' ∈ buf → buf = buf.takeWhile (fun c => c != '\n') ++
      '\n' :: (io.read_fields_istream ⟨buf, false, false⟩).1.buf) ∧
    ('\n' ∉ buf → buf.takeWhile (fun c => c != '\n') = buf ∧
      (io.read_fields_istream ⟨buf, false, false⟩).1.buf = []) ∧
    (io.read_fields_istream ⟨[], false, false⟩).2 = ⟨[]⟩ ∧
    (is.good = false →
      (io.read_fields_istream is).2 = ⟨[]⟩ ∧ (io.read_fields_istream is).1.buf = is.buf) := by
  have hx := getline_extract_eq_takeWhile '\n' buf
  have hr : (io.read_fields_istream ⟨buf, false, false⟩).1.buf
      = (buf.dropWhile (fun c => c != '\n')).drop 1 := by
    simp [ FieldsIO.read_fields_istream, getline, istream.good, hx]
  have hempty : io.read_fields [] = ⟨[]⟩ := by
    simp [ FieldsIO.read_fields, FieldsIO.read_fields_loop, istringstream, istream.good, getline,
      getline_extract]
  obtain ⟨h1, h2, h3⟩ := first_terminator_split '\n' buf
  refine ⟨?_, hr, h3, ?_, ?_, ?_, ?_⟩
  · simp [ FieldsIO.read_fields_istream, getline, istream.good, hx]
  · intro hm
    rw [hr]
    exact h1 hm
  · intro hm
    rw [hr]
    exact h2 hm
  · simp [ FieldsIO.read_fields_istream, getline, istream.good, getline_extract, hempty]
  · intro hg
    simp [ FieldsIO.read_fields_istream, getline, hg, hempty]

/-- C15 as stated fails for a count above `max_size()`: on the good stream `a\nb` with the
count `2^64 - 1`, where `i = 0` is below the count and the number of lines,
`read_fields_multiline` throws `std::length_error` from `reserve`, reads nothing and returns
no sequence, while `read_fields(in)` on that stream returns the sequence `[a]`. -/
theorem read_fields_multiline_huge_count_returns_nothing :
    0 < 2 ^ 64 - 1 ∧ 0 < (available_lines "a\nb".toList).length ∧
    FieldsIO.read_fields_multiline ⟨'\t'⟩ libstdcxx_impl (istringstream "a\nb".toList)
        (2 ^ 64 - 1)
      = (istringstream "a\nb".toList, .thrown (.length_error "vector::reserve")) ∧
    ( FieldsIO.read_fields_multiline ⟨'\t'⟩ libstdcxx_impl (istringstream "a\nb".toList)
        (2 ^ 64 - 1)).2.value? = none ∧
    ( FieldsIO.read_fields_istream ⟨'\t'⟩ (istringstream "a\nb".toList)).2
      = ⟨["a".toList]⟩ := by
  decide

/-- C15, amended: for every good stream, every count not above `max_size()` and every `i`
below both the count and the number of lines of the stream, `read_fields_multiline` returns a
vector whose `i`-th sequence is `read_fields` of the `i`-th line; for such a count the call is
`read_fields(in)` repeated while the count lasts and the stream is good; for a count above
`max_size()` it throws `std::length_error` and leaves the stream as it was. -/
theorem read_fields_multiline_parses_lines_in_order (io : FieldsIO) (impl : vector_impl)
    (buf : List Char) (count i : Nat) (hm : count ≤ impl.max_size) (hc : i < count)
    (hl : i < (available_lines buf).length) :
    (∃ l out, (available_lines buf)[i]? = some l ∧
      (io.read_fields_multiline impl ⟨buf, false, false⟩ count).2 = .returned out ∧
      out[i]? = some (io.read_fields l)) ∧
    (∀ (is : istream) (n : Nat), n ≤ impl.max_size →
      io.read_fields_multiline impl is n =
        ((io.read_fields_multiline_loop n is []).1,
          .returned (io.read_fields_multiline_loop n is []).2)) ∧
    (∀ is : istream, io.read_fields_multiline_loop 0 is [] = (is, [])) ∧
    (∀ (is : istream) (n : Nat), io.read_fields_multiline_loop (n + 1) is [] =
      if is.good then
        ((io.read_fields_multiline_loop n (io.read_fields_istream is).1 []).1,
          (io.read_fields_istream is).2 ::
            (io.read_fields_multiline_loop n (io.read_fields_istream is).1 []).2)
      else (is, [])) ∧
    (∀ (is : istream) (n : Nat), n > impl.max_size →
      io.read_fields_multiline impl is n
        = (is, .thrown (.length_error impl.reserve_what))) := by
  refine ⟨?_, ?_, ?_, ?_, ?_⟩
  · have hget := available_lines_get buf i hl
    have hlt : i < (available_lines buf).length := hl
    refine ⟨(available_lines buf)[i], ((buf.splitOn '\n').take count).map io.read_fields,
      List.getElem?_eq_getElem hlt, read_fields_multiline_eq io impl buf count hm, ?_⟩
    rw [List.getElem?_map, List.getElem?_take_of_lt hc, ← hget, List.getElem?_eq_getElem hlt]
    rfl
  · intro is n hn
    exact read_fields_multiline_returns io impl is n hn
  · intro is
    rfl
  · intro is n
    by_cases hg : is.good = true
    · simp only [ FieldsIO.read_fields_multiline_loop, hg, if_true]
      rw [read_fields_multiline_loop_acc]
      simp [vector_push_back]
    · simp [ FieldsIO.read_fields_multiline_loop, hg]
  · intro is n hn
    exact read_fields_multiline_throws io impl is n hn

/-- Witness of C15 at the stream `a\tb\nc` with a tab delimiter, count 5 and `i = 1`. -/
theorem read_fields_multiline_parses_lines_in_order_witness :
    (5 ≤ libstdcxx_impl.max_size ∧ 1 < 5 ∧ 1 < (available_lines "a\tb\nc".toList).length) ∧
    ∃ l out, (available_lines "a\tb\nc".toList)[1]? = some l ∧
      ( FieldsIO.read_fields_multiline ⟨'\t'⟩ libstdcxx_impl
          ⟨"a\tb\nc".toList, false, false⟩ 5).2 = .returned out ∧
      out[1]? = some ( FieldsIO.read_fields ⟨'\t'⟩ l) :=
  ⟨⟨by decide, by decide, by decide⟩,
    (read_fields_multiline_parses_lines_in_order ⟨'\t'⟩ libstdcxx_impl "a\tb\nc".toList 5 1
      (by decide) (by decide) (by decide)).1⟩

/-- C20 as stated fails for a count above `max_size()`: on the good stream `a\n`, one
terminated line, the count `2^64 - 1` is above `k = 1`, and `read_fields_multiline` throws
`std::length_error` from `reserve` where the claim has it return two sequences. -/
theorem read_fields_multiline_huge_count_throws :
    ("a\n".toList = [] ∨ "a\n".toList.getLast? = some '\n') ∧
    2 ^ 64 - 1 > "a\n".toList.count '\n' ∧
    ( FieldsIO.read_fields_multiline ⟨'\t'⟩ libstdcxx_impl (istringstream "a\n".toList)
        (2 ^ 64 - 1)).2 = .thrown (.length_error "vector::reserve") ∧
    (( FieldsIO.read_fields_multiline ⟨'\t'⟩ libstdcxx_impl (istringstream "a\n".toList)
        (2 ^ 64 - 1)).2.value?).map List.length ≠ some ("a\n".toList.count '\n' + 1) := by
  decide

/-- C20, amended: for a good stream whose text is empty or ends with a line terminator,
holding `k` lines, and every count above `k` and not above `max_size()`,
`read_fields_multiline` returns exactly `k + 1` sequences, the last of them empty; for a
count of at least one and not above `max_size()` a good stream gives at least one sequence;
no call returns more sequences than the count; for a count above `max_size()` the call
throws `std::length_error` and leaves the stream as it was. -/
theorem read_fields_multiline_terminated_lines (io : FieldsIO) (impl : vector_impl)
    (text : List Char) (count : Nat)
    (h : text = [] ∨ text.getLast? = some '\n') (hc : count > text.count '\n')
    (hm : count ≤ impl.max_size) :
    (available_lines text).length = text.count '\n' ∧
    (∃ out, (io.read_fields_multiline impl (istringstream text) count).2 = .returned out ∧
      out.length = text.count '\n' + 1 ∧ out.getLast? = some ⟨[]⟩) ∧
    (∀ (buf : List Char) (n : Nat), n ≥ 1 → n ≤ impl.max_size →
      ∃ out, (io.read_fields_multiline impl ⟨buf, false, false⟩ n).2 = .returned out ∧
        out.length ≥ 1) ∧
    (∀ (is : istream) (n : Nat) (out : List Fields),
      (io.read_fields_multiline impl is n).2 = .returned out → out.length ≤ n) ∧
    (∀ (is : istream) (n : Nat), n > impl.max_size →
      io.read_fields_multiline impl is n
        = (is, .thrown (.length_error impl.reserve_what))) := by
  have hlast := splitOn_getLast_nil '\n' text h
  have hlen := splitOn_length '\n' text
  have hempty : io.read_fields [] = ⟨[]⟩ := by
    simp [ FieldsIO.read_fields, FieldsIO.read_fields_loop, istringstream, istream.good, getline,
      getline_extract]
  refine ⟨?_, ?_, ?_, ?_, ?_⟩
  · unfold available_lines
    rw [if_pos hlast, List.length_dropLast, hlen]
    omega
  · refine ⟨((text.splitOn '\n').take count).map io.read_fields,
      read_fields_multiline_eq io impl text count hm, ?_, ?_⟩
    · rw [List.length_map, List.length_take, hlen]
      omega
    · rw [List.take_of_length_le (by omega), List.getLast?_map, hlast]
      simp [hempty]
  · intro buf n hn hnm
    refine ⟨((buf.splitOn '\n').take n).map io.read_fields,
      read_fields_multiline_eq io impl buf n hnm, ?_⟩
    rw [List.length_map, List.length_take, splitOn_length]
    omega
  · intro is n out hout
    by_cases hn : n ≤ impl.max_size
    · rw [read_fields_multiline_returns io impl is n hn] at hout
      have hle := read_fields_multiline_loop_length_le io n is []
      have heq : (io.read_fields_multiline_loop n is []).2 = out := by
        simpa using hout
      rw [heq] at hle
      simpa using hle
    · rw [read_fields_multiline_throws io impl is n (by omega)] at hout
      simp at hout
  · intro is n hn
    exact read_fields_multiline_throws io impl is n hn

/-- Witness of C20 at the stream `a\nb\n`, two terminated lines, with count 5. -/
theorem read_fields_multiline_terminated_lines_witness :
    ("a\nb\n".toList = [] ∨ "a\nb\n".toList.getLast? = some '\n') ∧
    5 > "a\nb\n".toList.count '\n' ∧ 5 ≤ libstdcxx_impl.max_size ∧
    ∃ out, ( FieldsIO.read_fields_multiline ⟨'\t'⟩ libstdcxx_impl
        (istringstream "a\nb\n".toList) 5).2 = .returned out ∧
      out.length = "a\nb\n".toList.count '\n' + 1 ∧ out.getLast? = some ⟨[]⟩ :=
  ⟨by decide, by decide, by decide,
    (read_fields_multiline_terminated_lines ⟨'\t'⟩ libstdcxx_impl "a\nb\n".toList 5
      (by decide) (by decide) (by decide)).2.1⟩

/-! ## In-place edits, fields of a parsed line, inverse operations -/

/-- C16: for every sequence, index below its size and modification `f` of a string, storing
`f` of the field through the mutable `operator[]` leaves the object in the state that
`replace_field(i, f(c))` with the copy `c = get_field(i)` leaves it in, with the modified
field at `i`; modifying the copy alone leaves the object as it was. The two edit-first-field
routines of the source agree on every sequence. -/
theorem index_mut_agrees_with_copy_replace (s : Fields) (i : Nat) (f : field_t → field_t)
    (h : i < s.size) :
    ∃ c put, s.index_mut i = some (c, put) ∧ s.get_field i = some c ∧
      s.replace_field i (f c) = (.returned, put (f c)) ∧
      (put (f c)).get_field i = some (f c) ∧
      edit_copy_only s i f = some (s, f c) ∧
      (∀ t : Fields, edit_first_field_with_copy t
        = (edit_first_field_in_place t).map (fun r => (outcome.returned, r))) := by
  have h2 : i < s.fields_.length := h
  have h3 : ¬ i ≥ s.fields_.length := by omega
  have hget : s.fields_[i]? = some s.fields_[i] := List.getElem?_eq_getElem h2
  refine ⟨s.fields_[i], fun v => ⟨s.fields_.set i v⟩, ?_, ?_, ?_, ?_, ?_, ?_⟩
  · simp [Fields.index_mut, hget]
  · simp [Fields.get_field, hget]
  · simp [Fields.replace_field, h3]
  · simp [Fields.get_field, h2]
  · simp [edit_copy_only, Fields.get_field, hget]
  · intro t
    cases hf : t.fields_ with
    | nil =>
      simp [edit_first_field_with_copy, edit_first_field_in_place, Fields.get_field,
        Fields.index_mut, hf]
    | cons a rest =>
      by_cases ha : 0 < a.length
      · simp [edit_first_field_with_copy, edit_first_field_in_place, Fields.get_field,
          Fields.index_mut, Fields.replace_field, string_set, hf, ha]
      · simp [edit_first_field_with_copy, edit_first_field_in_place, Fields.get_field,
          Fields.index_mut, string_set, hf, ha]

/-- Witness of C16 at the sequence `[xy, b]`, index 0, with `f` prepending the character `a`. -/
theorem index_mut_agrees_with_copy_replace_witness :
    0 < (Fields.mk ["xy".toList, "b".toList]).size ∧
    ∃ c put, (Fields.mk ["xy".toList, "b".toList]).index_mut 0 = some (c, put) ∧
      (Fields.mk ["xy".toList, "b".toList]).get_field 0 = some c ∧
      (Fields.mk ["xy".toList, "b".toList]).replace_field 0 ('a' :: c)
        = (.returned, put ('a' :: c)) :=
  ⟨by decide,
    (index_mut_agrees_with_copy_replace ⟨["xy".toList, "b".toList]⟩ 0 (fun c => 'a' :: c)
      (by decide)).imp fun _ hc => hc.imp fun _ hp => ⟨hp.1, hp.2.1, hp.2.2.1⟩⟩

/-- C17: for every text and delimiter, every field of `read_fields(text)` has at least one
character and contains no delimiter; so when the parsed sequence has a field, the write to
character 0 of field 0 done by both edit-first-field routines is within bounds. -/
theorem read_fields_fields_nonempty_no_delim (io : FieldsIO) (text : List Char) :
    (∀ f ∈ (io.read_fields text).fields_, f.length ≥ 1 ∧ io.delim_ ∉ f) ∧
    (0 < (io.read_fields text).size →
      ∃ r, edit_first_field_in_place (io.read_fields text) = some r ∧
        edit_first_field_with_copy (io.read_fields text) = some (.returned, r)) := by
  have hall : ∀ f ∈ (io.read_fields text).fields_, f.length ≥ 1 ∧ io.delim_ ∉ f := by
    intro f hf
    rw [read_fields_eq_spec] at hf
    simp only [parse_line_spec, List.mem_filter, decide_eq_true_eq] at hf
    exact ⟨hf.2, splitOn_no_delim io.delim_ text f hf.1⟩
  refine ⟨hall, ?_⟩
  intro hsize
  cases hf : (io.read_fields text).fields_ with
  | nil => simp [Fields.size, hf] at hsize
  | cons a rest =>
    have ha : 0 < a.length := (hall a (by simp [hf])).1
    refine ⟨⟨(a.set 0 'a') :: rest⟩, ?_, ?_⟩
    · simp [edit_first_field_in_place, Fields.index_mut, string_set, hf, ha]
    · simp [edit_first_field_with_copy, Fields.get_field, Fields.replace_field, string_set,
        hf, ha]

/-- C18: reverse round trip. For every delimiter and every sequence whose fields are all
non-empty and free of the delimiter, `read_fields` of the text written by `dump_fields` is
the sequence itself; the sequence with one empty field and the sequence with the one field
`a,b` under a comma delimiter are not given back. -/
theorem read_fields_dump_fields_round_trip (io : FieldsIO) (s : Fields)
    (h : ∀ f ∈ s.fields_, f.length > 0 ∧ io.delim_ ∉ f) :
    (io.dump_fields [] s).map io.read_fields = some s ∧
    ( FieldsIO.dump_fields ⟨','⟩ [] ⟨[[]]⟩).map ( FieldsIO.read_fields ⟨','⟩) = some ⟨[]⟩ ∧
    ( FieldsIO.dump_fields ⟨','⟩ [] ⟨[[]]⟩).map ( FieldsIO.read_fields ⟨','⟩) ≠ some ⟨[[]]⟩ ∧
    ( FieldsIO.dump_fields ⟨','⟩ [] ⟨["a,b".toList]⟩).map ( FieldsIO.read_fields ⟨','⟩)
      = some ⟨["a".toList, "b".toList]⟩ ∧
    ( FieldsIO.dump_fields ⟨','⟩ [] ⟨["a,b".toList]⟩).map ( FieldsIO.read_fields ⟨','⟩)
      ≠ some ⟨["a,b".toList]⟩ := by
  refine ⟨?_, by decide, by decide, by decide, by decide⟩
  cases s with
  | mk fs =>
    rw [dump_fields_eq_intercalate]
    simp only [List.nil_append, Option.map_some', Option.some.injEq]
    rw [read_fields_eq_spec]
    congr 1
    by_cases hfs : fs = []
    · subst hfs
      simp [parse_line_spec, List.intercalate]
    · unfold parse_line_spec
      rw [List.splitOn_intercalate _ io.delim_ (fun l hl => (h l hl).2) hfs]
      exact List.filter_eq_self.mpr (fun f hf => by simpa using (h f hf).1)

/-- Witness of C18 at the sequence `[ab, c]` with a tab delimiter. -/
theorem read_fields_dump_fields_round_trip_witness :
    (∀ f ∈ (Fields.mk ["ab".toList, "c".toList]).fields_, f.length > 0 ∧ '\t' ∉ f) ∧
    ( FieldsIO.dump_fields ⟨'\t'⟩ [] ⟨["ab".toList, "c".toList]⟩).map
        ( FieldsIO.read_fields ⟨'\t'⟩)
      = some ⟨["ab".toList, "c".toList]⟩ :=
  ⟨by decide,
    (read_fields_dump_fields_round_trip ⟨'\t'⟩ ⟨["ab".toList, "c".toList]⟩ (by decide)).1⟩

/-- C19: for every sequence, index below its size and string, `insert_field(i, v)` followed
by `remove_field(i)` both return normally and leave the sequence equal to the original. -/
theorem remove_field_undoes_insert_field (s : Fields) (i : Nat) (v : field_t)
    (h : i < s.size) :
    (s.insert_field i v).1 = .returned ∧
    (s.insert_field i v).2.remove_field i = (.returned, s) := by
  have h2 : ¬ i ≥ s.fields_.length := by simpa [Fields.size] using h
  have h3 : i ≤ s.fields_.length := Nat.le_of_lt h
  have hr : s.insert_field i v = (.returned, ⟨vector_insert s.fields_ i v⟩) := by
    simp [Fields.insert_field, h2]
  have hlen := vector_insert_length s.fields_ i v h3
  have h4 : ¬ i ≥ (vector_insert s.fields_ i v).length := by
    have : i < s.fields_.length := h
    omega
  rw [hr]
  refine ⟨rfl, ?_⟩
  simp only [Fields.remove_field, h4, if_false]
  rw [vector_erase_insert s.fields_ i v h3]

/-- Witness of C19 at the sequence `[a, b]`, index 1, inserting `x`. -/
theorem remove_field_undoes_insert_field_witness :
    1 < (Fields.mk [['a'], ['b']]).size ∧
    ((Fields.mk [['a'], ['b']]).insert_field 1 ['x']).1 = .returned ∧
    ((Fields.mk [['a'], ['b']]).insert_field 1 ['x']).2.remove_field 1
      = (.returned, ⟨[['a'], ['b']]⟩) :=
  ⟨by decide, remove_field_undoes_insert_field ⟨[['a'], ['b']]⟩ 1 ['x'] (by decide)⟩

end FieldsModel
